import Mathlib

/-!
Verification development for the go-api-toolkit repository.

It covers:
* the flow-controlled asynchronous queue (`PausingDeferredQueue`), whose
  implementation module is not present in the source tree (only its test
  suite is), so the queue operations are modelled from the design
  specification, section 4.1;
* `create_urlspec_regex` from `go_api/cyclone/handlers.py`;
* the exception-class hierarchy of `go_api/collections/errors.py`.
-/

namespace GoApiToolkit

/-! ## Flow-controlled queue model -/

/-- Possible error outcomes of queue operations: `QueueOverflow` raised
synchronously by `put`, `QueueUnderflow` raised synchronously by `get`. -/
inductive QErr where
  | overflow
  | underflow
deriving DecidableEq, Repr

/-- State of a single-assignment future (deferred):
`pending` (unresolved), `value v` (resolved with a payload, as for `get`
futures), `done` (resolved with success and no payload, as for `put`
futures), or `cancelled` (failed with `CancelledError`). -/
inductive FutureState where
  | pending
  | value (v : Nat)
  | done
  | cancelled
deriving DecidableEq, Repr

/-- Modelled from the spec: the data model of `FlowControlledQueue`
(`PausingDeferredQueue`, whose implementation module is missing from the
source tree). `buffer` holds accepted values awaiting a consumer,
`pending_gets` the ids of outstanding consumer futures, `pending_put` at
most one parked producer as a pair of value and future id. `size` and
`backlog` are the two optional capacity limits. `futures` records the
settlement state of every future ever handed out; `nextId` is the next
fresh future id. -/
structure QState where
  size : Option Nat
  backlog : Option Nat
  buffer : List Nat
  pending_gets : List Nat
  pending_put : Option (Nat × Nat)
  futures : Nat → FutureState
  nextId : Nat

/-- Modelled from the spec: a freshly constructed queue with the given
`(size, backlog)` limits and no buffered values, waiters, or futures. -/
def init (size backlog : Option Nat) : QState :=
  { size := size
    backlog := backlog
    buffer := []
    pending_gets := []
    pending_put := none
    futures := fun _ => FutureState.pending
    nextId := 0 }

/-- Modelled from the spec: `put(value)`. If a consumer is waiting, hand
the value directly to the oldest pending get and return an
already-resolved success future. Otherwise, if a producer is already
parked, fail synchronously with `QueueOverflow`. Otherwise append to the
buffer when capacity allows (always, when `size` is unlimited); a queue of
`size == 0` overflows instead of parking; and when the finite buffer is
exactly full, park the value with a new unresolved future as
`pending_put`. -/
def put (v : Nat) (s : QState) : Except QErr Nat × QState :=
  match s.pending_gets with
  | g :: rest =>
      (Except.ok s.nextId,
       { s with pending_gets := rest,
                futures := fun n =>
                  if n = s.nextId then FutureState.done
                  else if n = g then FutureState.value v
                  else s.futures n,
                nextId := s.nextId + 1 })
  | [] =>
      if s.pending_put.isSome then (Except.error QErr.overflow, s)
      else
        match s.size with
        | none =>
            (Except.ok s.nextId,
             { s with buffer := s.buffer ++ [v],
                      futures := fun n =>
                        if n = s.nextId then FutureState.done else s.futures n,
                      nextId := s.nextId + 1 })
        | some sz =>
            if sz = 0 then (Except.error QErr.overflow, s)
            else if s.buffer.length < sz then
              (Except.ok s.nextId,
               { s with buffer := s.buffer ++ [v],
                        futures := fun n =>
                          if n = s.nextId then FutureState.done else s.futures n,
                        nextId := s.nextId + 1 })
            else
              (Except.ok s.nextId,
               { s with pending_put := some (v, s.nextId),
                        futures := fun n =>
                          if n = s.nextId then FutureState.pending else s.futures n,
                        nextId := s.nextId + 1 })

/-- Modelled from the spec: `get()`. If the buffer is non-empty, pop its
oldest element into a new future resolved immediately with that value; a
parked producer's value then moves into the buffer and its promise
resolves to success. If the buffer is empty and the backlog limit is not
exhausted, append a new unresolved future to `pending_gets`. Otherwise
fail synchronously with `QueueUnderflow`. -/
def get (s : QState) : Except QErr Nat × QState :=
  match s.buffer with
  | w :: rest =>
      match s.pending_put with
      | some (pv, pfid) =>
          (Except.ok s.nextId,
           { s with buffer := rest ++ [pv],
                    pending_put := none,
                    futures := fun n =>
                      if n = s.nextId then FutureState.value w
                      else if n = pfid then FutureState.done
                      else s.futures n,
                    nextId := s.nextId + 1 })
      | none =>
          (Except.ok s.nextId,
           { s with buffer := rest,
                    futures := fun n =>
                      if n = s.nextId then FutureState.value w else s.futures n,
                    nextId := s.nextId + 1 })
  | [] =>
      match s.backlog with
      | none =>
          (Except.ok s.nextId,
           { s with pending_gets := s.pending_gets ++ [s.nextId],
                    futures := fun n =>
                      if n = s.nextId then FutureState.pending else s.futures n,
                    nextId := s.nextId + 1 })
      | some b =>
          if s.pending_gets.length < b then
            (Except.ok s.nextId,
             { s with pending_gets := s.pending_gets ++ [s.nextId],
                      futures := fun n =>
                        if n = s.nextId then FutureState.pending else s.futures n,
                      nextId := s.nextId + 1 })
          else (Except.error QErr.underflow, s)

/-- Modelled from the spec: cancelling a `get` future. If the future is
still pending and held by `pending_gets`, it is removed from
`pending_gets` and settled with failure `CancelledError`; cancelling a
future that has already resolved is a no-op. -/
def cancel (fid : Nat) (s : QState) : QState :=
  match s.futures fid with
  | FutureState.pending =>
      if fid ∈ s.pending_gets then
        { s with pending_gets := s.pending_gets.filter (fun g => g != fid),
                 futures := fun n =>
                   if n = fid then FutureState.cancelled else s.futures n }
      else s
  | _ => s

/-- An externally observable queue operation: a producer call, a consumer
call, or a cancellation of a previously returned get future. -/
inductive Op where
  | put (v : Nat)
  | get
  | cancel (fid : Nat)
deriving DecidableEq, Repr

/-- Whether an operation is a cancellation. -/
def Op.isCancel : Op → Bool
  | Op.cancel _ => true
  | _ => false

/-- The state transition of one operation (discarding the call's result). -/
def applyOp (s : QState) : Op → QState
  | Op.put v => (put v s).2
  | Op.get => (get s).2
  | Op.cancel fid => cancel fid s

/-- Run a sequence of operations from a starting state. -/
def runTrace (ops : List Op) (s : QState) : QState :=
  ops.foldl applyOp s

/-- Run a sequence of operations, returning the final state together with
the future ids handed out by the successful `get` calls, in call order. -/
def runGets : List Op → QState → QState × List Nat
  | [], s => (s, [])
  | Op.get :: rest, s =>
      match (get s).1 with
      | Except.ok fid =>
          ((runGets rest (get s).2).1, fid :: (runGets rest (get s).2).2)
      | Except.error _ => runGets rest (get s).2
  | op :: rest, s => runGets rest (applyOp s op)

/-- The values supplied by the `put` operations of a trace, in call order. -/
def putVals (ops : List Op) : List Nat :=
  ops.filterMap (fun o => match o with | Op.put v => some v | _ => none)

/-- The number of `get` operations in a trace. -/
def numGets (ops : List Op) : Nat :=
  (ops.filter (fun o => match o with | Op.get => true | _ => false)).length

/-! ## URL spec regex generation (`go_api/cyclone/handlers.py`) -/

/-- Split a character list on a separator character, mirroring Python's
`str.split(sep)` with a one-character separator: the result is always
non-empty, and empty segments are kept. -/
def splitOnChar (sep : Char) : List Char → List (List Char)
  | [] => [[]]
  | c :: cs =>
      match splitOnChar sep cs with
      | [] => [[c]]
      | p :: ps => if c = sep then [] :: p :: ps else (c :: p) :: ps

/-- Join a list of segments with a separator character, mirroring Python's
`sep.join(parts)`. -/
def joinChar (sep : Char) : List (List Char) → List Char
  | [] => []
  | [p] => p
  | p :: q :: ps => p ++ sep :: joinChar sep (q :: ps)

/-- The inner `replace_part` of `create_urlspec_regex`: a segment starting
with a colon becomes the named group `(?P<name>[^/]*)` where `name` is the
segment with all leading colons stripped (Python's `lstrip(":")`); any
other segment is returned unchanged. -/
def replace_part (part : List Char) : List Char :=
  if part.head? = some ':' then
    "(?P<".toList ++ part.dropWhile (fun c => c = ':') ++ ">[^/]*)".toList
  else part

/-- `create_urlspec_regex(dfn)`: split the definition on `/`, apply
`replace_part` to each segment, and rejoin with `/`. -/
def create_urlspec_regex (dfn : List Char) : List Char :=
  joinChar '/' ((splitOnChar '/' dfn).map replace_part)

/-- The per-segment transformation as the claim describes it: a segment
that starts with a colon is replaced by the named group
`(?P<name>[^/]*)`, `name` being the segment with all leading colons
stripped; every other segment is left unchanged. Stated separately from
`replace_part` so the code can be compared against the claim's words. -/
def segmentSpec (part : List Char) : List Char :=
  if part.head? = some ':' then
    "(?P<".toList ++ part.dropWhile (fun c => c = ':') ++ ">[^/]*)".toList
  else part

/-- Whether some `/`-separated segment of the definition starts with a
colon. -/
def hasColonSegment (dfn : List Char) : Bool :=
  (splitOnChar '/' dfn).any (fun p => p.head? == some ':')

/-! ## Collection error hierarchy (`go_api/collections/errors.py`) -/

/-- The exception classes involved in `go_api/collections/errors.py`,
together with Python's built-in `Exception` root. -/
inductive ExcClass where
  | exception
  | collectionError
  | collectionUsageError
  | collectionObjectNotFound
deriving DecidableEq, Repr

/-- The declared base class of each exception class, read off the source:
`class CollectionError(Exception)`, `class CollectionUsageError(Exception)`,
`class CollectionObjectNotFound(CollectionUsageError)`. `Exception` itself
is the root. -/
def parentClass : ExcClass → Option ExcClass
  | ExcClass.exception => none
  | ExcClass.collectionError => some ExcClass.exception
  | ExcClass.collectionUsageError => some ExcClass.exception
  | ExcClass.collectionObjectNotFound => some ExcClass.collectionUsageError

/-- The chain of classes reached by following `parentClass`, computed with
enough fuel to exhaust this finite hierarchy (its longest chain has three
classes). -/
def ancestorsAux : Nat → Option ExcClass → List ExcClass
  | 0, _ => []
  | _ + 1, none => []
  | n + 1, some c => c :: ancestorsAux n (parentClass c)

/-- A class together with all of its (transitive) base classes. -/
def ancestors (c : ExcClass) : List ExcClass :=
  ancestorsAux 4 (some c)

/-- Python `except handler:` semantics: a handler for class `handler`
catches a raised instance of class `raised` exactly when `handler` is
`raised` itself or one of its base classes. -/
def catches (handler raised : ExcClass) : Bool :=
  handler ∈ ancestors raised

/-- The invariant of the unbounded queue run: `vs` are the values put so
far (in call order), `gs` the future ids handed to the `get` calls so far
(in call order). The first `min vs gs` pairs are matched and settled; the
excess side is exactly the buffer, respectively the pending gets. -/
structure UInv (s : QState) (vs gs : List Nat) : Prop where
  hsize : s.size = none
  hbacklog : s.backlog = none
  hpp : s.pending_put = none
  hbound : ∀ g ∈ gs, g < s.nextId
  hnodup : gs.Nodup
  hmatched : ∀ i, (hv : i < vs.length) → (hg : i < gs.length) →
    s.futures gs[i] = FutureState.value vs[i]
  hpending : ∀ i, vs.length ≤ i → (hg : i < gs.length) →
    s.futures gs[i] = FutureState.pending
  hshape : (gs.length ≤ vs.length ∧ s.buffer = vs.drop gs.length ∧ s.pending_gets = []) ∨
    (vs.length ≤ gs.length ∧ s.buffer = [] ∧ s.pending_gets = gs.drop vs.length)

/-! ## Theorems -/

/-- C3: on a queue with finite size, no pending gets and no pending put,
a `put` issued while `buffer.length < size` appends the value to the
buffer and returns a future that is already resolved with success when
`put` returns; the rest of the queue state is untouched. -/
theorem put_below_capacity_resolves (s : QState) (N v : Nat)
    (hsize : s.size = some N) (hpg : s.pending_gets = [])
    (hpp : s.pending_put = none) (hlt : s.buffer.length < N) :
    (put v s).1 = Except.ok s.nextId ∧
    ((put v s).2).futures s.nextId = FutureState.done ∧
    ((put v s).2).buffer = s.buffer ++ [v] ∧
    ((put v s).2).pending_gets = [] ∧
    ((put v s).2).pending_put = none := by
  obtain ⟨sz, bl, buf, pg, pp, fut, nid⟩ := s
  simp only at hsize hpg hpp hlt ⊢
  subst hsize hpg hpp
  have hN : N ≠ 0 := by omega
  simp [put, hlt, hN]

/-- Witness for C3 at a concrete queue: size 3, one value buffered. -/
theorem put_below_capacity_resolves_witness :
    ((put 0 (init (some 3) none)).2).size = some 3 ∧
    ((put 0 (init (some 3) none)).2).pending_gets = [] ∧
    ((put 0 (init (some 3) none)).2).pending_put = none ∧
    ((put 0 (init (some 3) none)).2).buffer.length < 3 ∧
    ((put 7 ((put 0 (init (some 3) none)).2)).1
      = Except.ok ((put 0 (init (some 3) none)).2).nextId ∧
     ((put 7 ((put 0 (init (some 3) none)).2)).2).futures
        ((put 0 (init (some 3) none)).2).nextId = FutureState.done ∧
     ((put 7 ((put 0 (init (some 3) none)).2)).2).buffer
        = ((put 0 (init (some 3) none)).2).buffer ++ [7] ∧
     ((put 7 ((put 0 (init (some 3) none)).2)).2).pending_gets = [] ∧
     ((put 7 ((put 0 (init (some 3) none)).2)).2).pending_put = none) :=
  ⟨rfl, rfl, rfl, by decide,
   put_below_capacity_resolves _ 3 7 rfl rfl rfl (by decide)⟩

/-- C4: on a queue constructed with `size = 0`, a `put` issued while no
get is pending fails synchronously with `QueueOverflow` and leaves the
queue state exactly as it was (nothing is buffered, no pausing slot is
entered). -/
theorem zero_size_put_overflows (s : QState) (v : Nat)
    (hsize : s.size = some 0) (hpg : s.pending_gets = []) :
    put v s = (Except.error QErr.overflow, s) := by
  obtain ⟨sz, bl, buf, pg, pp, fut, nid⟩ := s
  simp only at hsize hpg
  subst hsize hpg
  cases pp <;> simp [put]

/-- Witness for C4 at a concrete queue of size zero. -/
theorem zero_size_put_overflows_witness :
    (init (some 0) none).size = some 0 ∧
    (init (some 0) none).pending_gets = [] ∧
    put 5 (init (some 0) none) = (Except.error QErr.overflow, init (some 0) none) :=
  ⟨rfl, rfl, zero_size_put_overflows _ 5 rfl rfl⟩

/-- C5: on a queue with finite backlog `b`, a `get` issued while the
buffer is empty and exactly `b` gets are already pending fails
synchronously with `QueueUnderflow` and leaves the queue state exactly as
it was (no new pending get is enqueued); `b = 0` is included. -/
theorem backlog_exhausted_get_underflows (s : QState) (b : Nat)
    (hbuf : s.buffer = []) (hbl : s.backlog = some b)
    (hlen : s.pending_gets.length = b) :
    get s = (Except.error QErr.underflow, s) := by
  obtain ⟨sz, bl, buf, pg, pp, fut, nid⟩ := s
  simp only at hbuf hbl hlen
  subst hbuf hbl
  simp [get, hlen]

/-- Witness for C5 at a concrete queue: backlog 2 with two pending gets. -/
theorem backlog_exhausted_get_underflows_witness :
    (runTrace [Op.get, Op.get] (init none (some 2))).buffer = [] ∧
    (runTrace [Op.get, Op.get] (init none (some 2))).backlog = some 2 ∧
    (runTrace [Op.get, Op.get] (init none (some 2))).pending_gets.length = 2 ∧
    get (runTrace [Op.get, Op.get] (init none (some 2)))
      = (Except.error QErr.underflow, runTrace [Op.get, Op.get] (init none (some 2))) :=
  ⟨rfl, rfl, rfl,
   backlog_exhausted_get_underflows _ 2 rfl rfl rfl⟩

/-- C2: on a queue of finite size `N` with no pending gets, a full buffer
and one parked (overflow-pausing) producer, the next `put` fails
synchronously with `QueueOverflow` and changes nothing; one `get` then
drains a slot, resolves the parked put's future with success and refills
the buffer from the pausing slot; after that exactly one more `put` is
accepted — it parks with an unresolved future — and a further `put`
again fails with `QueueOverflow`. -/
theorem single_pausing_slot (s : QState) (N pv pfid w u bh : Nat) (bt : List Nat)
    (hsize : s.size = some N) (hbuf : s.buffer = bh :: bt)
    (hlen : s.buffer.length = N) (hpg : s.pending_gets = [])
    (hpp : s.pending_put = some (pv, pfid)) (hpfid : pfid < s.nextId) :
    put w s = (Except.error QErr.overflow, s) ∧
    (get s).1 = Except.ok s.nextId ∧
    ((get s).2).futures s.nextId = FutureState.value bh ∧
    ((get s).2).futures pfid = FutureState.done ∧
    ((get s).2).pending_put = none ∧
    ((get s).2).buffer = bt ++ [pv] ∧
    (put w ((get s).2)).1 = Except.ok ((get s).2).nextId ∧
    ((put w ((get s).2)).2).futures ((get s).2).nextId = FutureState.pending ∧
    ((put w ((get s).2)).2).pending_put = some (w, ((get s).2).nextId) ∧
    (put u ((put w ((get s).2)).2)).1 = Except.error QErr.overflow := by
  obtain ⟨sz, bl, buf, pg, pp, fut, nid⟩ := s
  simp only at hsize hbuf hlen hpg hpp hpfid ⊢
  subst hsize hbuf hpg hpp
  have hne : pfid ≠ nid := Nat.ne_of_lt hpfid
  have hN : bt.length + 1 = N := by simpa using hlen
  have hN0 : N ≠ 0 := by omega
  have hlen2 : (bt ++ [pv]).length = N := by simp; omega
  refine ⟨by simp [put], by simp [get], by simp [get], by simp [get, hne],
          by simp [get], by simp [get], ?_, ?_, ?_, ?_⟩ <;>
    simp [put, get, hlen2, hN0]

/-- Witness for C2: a queue of size 1 holding one value with a parked
producer, built by two puts. -/
theorem single_pausing_slot_witness :
    ((put 6 ((put 5 (init (some 1) none)).2)).2).size = some 1 ∧
    ((put 6 ((put 5 (init (some 1) none)).2)).2).buffer = 5 :: [] ∧
    ((put 6 ((put 5 (init (some 1) none)).2)).2).buffer.length = 1 ∧
    ((put 6 ((put 5 (init (some 1) none)).2)).2).pending_gets = [] ∧
    ((put 6 ((put 5 (init (some 1) none)).2)).2).pending_put = some (6, 1) ∧
    1 < ((put 6 ((put 5 (init (some 1) none)).2)).2).nextId ∧
    put 9 ((put 6 ((put 5 (init (some 1) none)).2)).2)
      = (Except.error QErr.overflow, (put 6 ((put 5 (init (some 1) none)).2)).2) ∧
    ((get ((put 6 ((put 5 (init (some 1) none)).2)).2)).2).futures 1
      = FutureState.done :=
  ⟨rfl, rfl, rfl, rfl, rfl, by decide,
   (single_pausing_slot ((put 6 ((put 5 (init (some 1) none)).2)).2)
     1 6 1 9 3 5 [] rfl rfl rfl rfl rfl (by decide)).1,
   (single_pausing_slot ((put 6 ((put 5 (init (some 1) none)).2)).2)
     1 6 1 9 3 5 [] rfl rfl rfl rfl rfl (by decide)).2.2.2.1⟩

/-- Helper: a `put` never changes the settlement state of an
already-allocated future that is not among the pending gets. -/
theorem put_preserves_other_futures (s : QState) (v fid : Nat)
    (hlt : fid < s.nextId) (hmem : fid ∉ s.pending_gets) :
    ((put v s).2).futures fid = s.futures fid := by
  obtain ⟨sz, bl, buf, pg, pp, fut, nid⟩ := s
  simp only at hlt hmem ⊢
  have hne : fid ≠ nid := Nat.ne_of_lt hlt
  cases pg with
  | nil =>
      cases pp with
      | some p => simp [put, hne]
      | none =>
          cases sz with
          | none => simp [put, hne]
          | some m =>
              by_cases h0 : m = 0
              · simp [put, hne, h0]
              · by_cases hb : buf.length < m
                · simp [put, hne, h0, hb]
                · simp [put, hne, h0, hb]
  | cons g rest =>
      have hg : fid ≠ g := fun h => hmem (h ▸ List.mem_cons_self g rest)
      simp [put, hne, hg]

/-- C6: cancelling a still-pending get future removes it from
`pending_gets` and settles it with failure `CancelledError`, touching
neither buffer nor pausing slot; a later `put` never resolves the
cancelled future, and on a queue whose only waiter was the cancelled one
a subsequent `put`/`get` pair completes normally: the put's future is
resolved with success, the get's future receives the put's value, and the
cancelled future stays cancelled. -/
theorem cancel_pending_get (s : QState) (fid w : Nat)
    (hf : s.futures fid = FutureState.pending)
    (hmem : fid ∈ s.pending_gets) :
    fid ∉ (cancel fid s).pending_gets ∧
    (cancel fid s).futures fid = FutureState.cancelled ∧
    (cancel fid s).buffer = s.buffer ∧
    (cancel fid s).pending_put = s.pending_put ∧
    (fid < s.nextId → ((put w (cancel fid s)).2).futures fid = FutureState.cancelled) ∧
    (s.pending_gets = [fid] → s.buffer = [] → s.pending_put = none → s.size = none →
     fid < s.nextId →
      (put w (cancel fid s)).1 = Except.ok s.nextId ∧
      ((put w (cancel fid s)).2).futures s.nextId = FutureState.done ∧
      (get ((put w (cancel fid s)).2)).1 = Except.ok (s.nextId + 1) ∧
      ((get ((put w (cancel fid s)).2)).2).futures (s.nextId + 1) = FutureState.value w ∧
      ((get ((put w (cancel fid s)).2)).2).futures fid = FutureState.cancelled) := by
  obtain ⟨sz, bl, buf, pg, pp, fut, nid⟩ := s
  simp only at hf hmem ⊢
  have hc : cancel fid ⟨sz, bl, buf, pg, pp, fut, nid⟩ =
      ⟨sz, bl, buf, pg.filter (fun g => g != fid), pp,
       fun n => if n = fid then FutureState.cancelled else fut n, nid⟩ := by
    unfold cancel
    simp only [hf]
    rw [if_pos hmem]
  rw [hc]
  refine ⟨?_, by simp, rfl, rfl, ?_, ?_⟩
  · simp [List.mem_filter]
  · intro hlt
    have hne : fid ≠ nid := Nat.ne_of_lt hlt
    have := put_preserves_other_futures
      ⟨sz, bl, buf, pg.filter (fun g => g != fid), pp,
       fun n => if n = fid then FutureState.cancelled else fut n, nid⟩ w fid hlt
      (by simp [List.mem_filter])
    simp only at this
    rw [this]
    simp
  · intro hpg1 hbuf hpp hsize hlt
    subst hpg1 hbuf hpp hsize
    have hne : fid ≠ nid := Nat.ne_of_lt hlt
    have hne1 : fid ≠ nid + 1 := by omega
    have hfilter : [fid].filter (fun g => g != fid) = [] := by simp
    rw [hfilter]
    refine ⟨by simp [put], by simp [put], ?_, ?_, ?_⟩ <;>
      simp [put, get, hne, hne1]

/-- Witness for C6: a queue with a single pending get that is cancelled,
then a put/get pair that completes normally. -/
theorem cancel_pending_get_witness :
    ((get (init none none)).2).futures 0 = FutureState.pending ∧
    0 ∈ ((get (init none none)).2).pending_gets ∧
    (0 ∉ (cancel 0 ((get (init none none)).2)).pending_gets ∧
     (cancel 0 ((get (init none none)).2)).futures 0 = FutureState.cancelled ∧
     ((get ((put 4 (cancel 0 ((get (init none none)).2))).2)).2).futures 0
       = FutureState.cancelled ∧
     ((get ((put 4 (cancel 0 ((get (init none none)).2))).2)).2).futures
       (((get (init none none)).2).nextId + 1) = FutureState.value 4) :=
  ⟨by decide, by decide,
   (cancel_pending_get _ 0 4 (by decide) (by decide)).1,
   (cancel_pending_get _ 0 4 (by decide) (by decide)).2.1,
   ((cancel_pending_get _ 0 4 (by decide) (by decide)).2.2.2.2.2
     (by decide) (by decide) (by decide) (by decide) (by decide)).2.2.2.2,
   ((cancel_pending_get _ 0 4 (by decide) (by decide)).2.2.2.2.2
     (by decide) (by decide) (by decide) (by decide) (by decide)).2.2.2.1⟩

/-- C7: cancelling a get future that has already resolved with a value is
a no-op: the whole queue state, the future's delivered value included, is
unchanged. -/
theorem cancel_resolved_noop (s : QState) (fid v : Nat)
    (h : s.futures fid = FutureState.value v) :
    cancel fid s = s := by
  unfold cancel
  rw [h]

/-- Witness for C7: a get future resolved synchronously by a prior put is
cancelled without effect. -/
theorem cancel_resolved_noop_witness :
    ((get ((put 7 (init none none)).2)).2).futures 1 = FutureState.value 7 ∧
    cancel 1 ((get ((put 7 (init none none)).2)).2)
      = (get ((put 7 (init none none)).2)).2 :=
  ⟨by decide, cancel_resolved_noop _ 1 7 (by decide)⟩

/-- C10: `CollectionUsageError` derives directly from `Exception`, not
from `CollectionError`, and `CollectionObjectNotFound` derives from
`CollectionUsageError`; hence a handler catching `CollectionError`
catches neither `CollectionUsageError` nor `CollectionObjectNotFound`. -/
theorem collection_error_hierarchy :
    parentClass ExcClass.collectionUsageError = some ExcClass.exception ∧
    parentClass ExcClass.collectionUsageError ≠ some ExcClass.collectionError ∧
    parentClass ExcClass.collectionObjectNotFound = some ExcClass.collectionUsageError ∧
    catches ExcClass.collectionError ExcClass.collectionUsageError = false ∧
    catches ExcClass.collectionError ExcClass.collectionObjectNotFound = false ∧
    catches ExcClass.collectionUsageError ExcClass.collectionObjectNotFound = true ∧
    catches ExcClass.exception ExcClass.collectionUsageError = true := by
  decide

/-- Helper: every single operation preserves mutual exclusion of a
non-empty buffer and non-empty pending gets. -/
theorem exclusive_applyOp (s : QState) (op : Op)
    (h : s.buffer = [] ∨ s.pending_gets = []) :
    (applyOp s op).buffer = [] ∨ (applyOp s op).pending_gets = [] := by
  obtain ⟨sz, bl, buf, pg, pp, fut, nid⟩ := s
  simp only at h ⊢
  cases op with
  | put v =>
      cases pg with
      | cons g rest =>
          rcases h with h | h
          · subst h; exact Or.inl (by simp [applyOp, put])
          · simp at h
      | nil =>
          right
          cases pp with
          | some p => simp [applyOp, put]
          | none =>
              cases sz with
              | none => simp [applyOp, put]
              | some m =>
                  by_cases h0 : m = 0
                  · simp [applyOp, put, h0]
                  · by_cases hb : buf.length < m
                    · simp [applyOp, put, h0, hb]
                    · simp [applyOp, put, h0, hb]
  | get =>
      cases buf with
      | cons w rest =>
          rcases h with h | h
          · simp at h
          · right
            obtain rfl : pg = [] := h
            cases pp with
            | some p =>
                obtain ⟨pv, pfid⟩ := p
                simp [applyOp, get]
            | none => simp [applyOp, get]
      | nil =>
          left
          cases bl with
          | none => simp [applyOp, get]
          | some b =>
              by_cases hb : pg.length < b
              · simp [applyOp, get, hb]
              · simp [applyOp, get, hb]
  | cancel fid =>
      simp only [applyOp]
      unfold cancel
      rcases hf : fut fid with _ | v | _ | _
      · simp only [hf]
        by_cases hmem : fid ∈ pg
        · rw [if_pos hmem]
          rcases h with h | h
          · exact Or.inl h
          · subst h; exact Or.inr (by simp)
        · rw [if_neg hmem]; exact h
      · simp only [hf]; exact h
      · simp only [hf]; exact h
      · simp only [hf]; exact h

/-- Helper: along any trace from a fresh queue, the buffer and the
pending gets are never both non-empty. -/
theorem exclusive_runTrace (ops : List Op) (s : QState)
    (h : s.buffer = [] ∨ s.pending_gets = []) :
    (runTrace ops s).buffer = [] ∨ (runTrace ops s).pending_gets = [] := by
  induction ops generalizing s with
  | nil => exact h
  | cons op rest ih =>
      simp only [runTrace, List.foldl_cons] at *
      exact ih _ (exclusive_applyOp s op h)

/-- C8: over every sequence of put, get and cancel operations from a
fresh queue, the state between operations never has both a non-empty
buffer and non-empty pending gets; and a `put` issued while consumers
wait hands its value directly to the oldest waiter — the buffer is
untouched, the waiter is popped and its future resolves with the value. -/
theorem buffer_gets_exclusive (sz bl : Option Nat) (ops : List Op)
    (s : QState) (v g : Nat) (rest : List Nat) :
    ((runTrace ops (init sz bl)).buffer = [] ∨
      (runTrace ops (init sz bl)).pending_gets = []) ∧
    (s.pending_gets = g :: rest →
      (put v s).1 = Except.ok s.nextId ∧
      ((put v s).2).buffer = s.buffer ∧
      ((put v s).2).pending_gets = rest ∧
      (g < s.nextId → ((put v s).2).futures g = FutureState.value v)) := by
  constructor
  · exact exclusive_runTrace ops _ (Or.inl rfl)
  · intro hpg
    obtain ⟨sz', bl', buf, pg, pp, fut, nid⟩ := s
    simp only at hpg ⊢
    subst hpg
    refine ⟨by simp [put], by simp [put], by simp [put], ?_⟩
    intro hlt
    have hne : g ≠ nid := Nat.ne_of_lt hlt
    simp [put, hne]

/-- Witness for C8: a two-operation trace, and a direct hand-off on a
queue with one waiting consumer. -/
theorem buffer_gets_exclusive_witness :
    ((get (init none none)).2).pending_gets = 0 :: [] ∧
    ((runTrace [Op.put 1, Op.get] (init none none)).buffer = [] ∨
      (runTrace [Op.put 1, Op.get] (init none none)).pending_gets = []) ∧
    ((put 5 ((get (init none none)).2)).2).buffer
      = ((get (init none none)).2).buffer ∧
    ((put 5 ((get (init none none)).2)).2).futures 0 = FutureState.value 5 := by
  refine ⟨rfl, ?_, ?_, ?_⟩
  · exact (buffer_gets_exclusive none none [Op.put 1, Op.get]
      ((get (init none none)).2) 5 0 []).1
  · exact ((buffer_gets_exclusive none none [Op.put 1, Op.get]
      ((get (init none none)).2) 5 0 []).2 rfl).2.1
  · exact ((buffer_gets_exclusive none none [Op.put 1, Op.get]
      ((get (init none none)).2) 5 0 []).2 rfl).2.2.2 (by decide)

/-- Helper: splitting never returns an empty list of segments. -/
theorem splitOnChar_ne_nil (sep : Char) (l : List Char) :
    splitOnChar sep l ≠ [] := by
  cases l with
  | nil => simp [splitOnChar]
  | cons c cs =>
      cases h : splitOnChar sep cs with
      | nil => simp [splitOnChar, h]
      | cons p ps =>
          by_cases hc : c = sep <;> simp [splitOnChar, h, hc]

/-- Helper: joining the segments obtained by splitting reproduces the
original character list. -/
theorem joinChar_splitOnChar (sep : Char) (l : List Char) :
    joinChar sep (splitOnChar sep l) = l := by
  induction l with
  | nil => rfl
  | cons c cs ih =>
      cases h : splitOnChar sep cs with
      | nil => exact absurd h (splitOnChar_ne_nil sep cs)
      | cons p ps =>
          rw [h] at ih
          have hsplit : splitOnChar sep (c :: cs)
              = if c = sep then [] :: p :: ps else (c :: p) :: ps := by
            simp [splitOnChar, h]
          rw [hsplit]
          by_cases hc : c = sep
          · subst hc
            rw [if_pos rfl]
            simp only [joinChar, List.nil_append]
            rw [ih]
          · rw [if_neg hc]
            cases ps with
            | nil =>
                simp only [joinChar] at ih ⊢
                rw [ih]
            | cons q qs =>
                simp only [joinChar] at ih ⊢
                rw [List.cons_append, ih]

/-- C9: `create_urlspec_regex` splits the definition on `/`, rewrites
exactly the segments that start with a colon into named groups as the
per-segment specification describes, and rejoins with `/`; a definition
with no colon segments is returned unchanged. -/
theorem create_urlspec_regex_splits (dfn : List Char) :
    create_urlspec_regex dfn
      = joinChar '/' ((splitOnChar '/' dfn).map segmentSpec) ∧
    (hasColonSegment dfn = false → create_urlspec_regex dfn = dfn) := by
  constructor
  · rfl
  · intro h
    unfold hasColonSegment at h
    rw [List.any_eq_false] at h
    unfold create_urlspec_regex
    have hmap : (splitOnChar '/' dfn).map replace_part
        = (splitOnChar '/' dfn).map id := by
      apply List.map_congr_left
      intro p hp
      have hne := h p hp
      simp only [beq_iff_eq] at hne
      unfold replace_part
      rw [if_neg hne]
      rfl
    rw [hmap, List.map_id, joinChar_splitOnChar]

/-- Witness for C9: a definition with no colon segments is unchanged. -/
theorem create_urlspec_regex_splits_witness :
    hasColonSegment ("/foo/bar".toList) = false ∧
    create_urlspec_regex ("/foo/bar".toList) = "/foo/bar".toList :=
  ⟨by decide, (create_urlspec_regex_splits ("/foo/bar".toList)).2 (by decide)⟩

/-- Helper: a fresh unbounded queue satisfies the run invariant. -/
theorem uinv_init : UInv (init none none) [] [] := by
  refine ⟨rfl, rfl, rfl, ?_, List.nodup_nil, ?_, ?_, Or.inl ⟨Nat.le_refl 0, rfl, rfl⟩⟩
  · intro g hg; cases hg
  · intro i hv hg; exact absurd hg (by simp)
  · intro i hge hg; exact absurd hg (by simp)

/-- Helper: `put` preserves the run invariant of the unbounded queue,
extending the list of produced values. -/
theorem uinv_put (s : QState) (vs gs : List Nat) (v : Nat) (h : UInv s vs gs) :
    UInv ((put v s).2) (vs ++ [v]) gs := by
  obtain ⟨sz, bl, buf, pg, pp, fut, nid⟩ := s
  obtain ⟨hsize, hbacklog, hpp, hbound, hnodup, hmatched, hpending, hshape⟩ := h
  simp only at hsize hbacklog hpp hbound hmatched hpending hshape ⊢
  subst hsize hbacklog hpp
  cases pg with
  | nil =>
      obtain ⟨hle, hbuf⟩ : gs.length ≤ vs.length ∧ buf = vs.drop gs.length := by
        rcases hshape with ⟨h1, h2, _⟩ | ⟨h1, h2, h3⟩
        · exact ⟨h1, h2⟩
        · have h4 : gs.length ≤ vs.length := List.drop_eq_nil_iff.mp h3.symm
          have h5 : gs.length = vs.length := le_antisymm h4 h1
          refine ⟨h4, ?_⟩
          rw [h2, h5, List.drop_length]
      have hput : put v ⟨none, none, buf, [], none, fut, nid⟩
          = (Except.ok nid, ⟨none, none, buf ++ [v], [], none,
             fun n => if n = nid then FutureState.done else fut n, nid + 1⟩) := by
        simp [put]
      rw [hput]
      refine ⟨rfl, rfl, rfl, ?_, hnodup, ?_, ?_, ?_⟩
      · intro g hg; exact Nat.lt_succ_of_lt (hbound g hg)
      · intro i hv hg2
        have hiv : i < vs.length := lt_of_lt_of_le hg2 hle
        have hne : gs[i] ≠ nid := Nat.ne_of_lt (hbound _ (List.getElem_mem hg2))
        simp only [hne, if_false, ite_false, if_neg]
        rw [List.getElem_append_left hiv]
        exact hmatched i hiv hg2
      · intro i hge hg2
        simp only [List.length_append, List.length_singleton] at hge
        omega
      · left
        refine ⟨by simp; omega, ?_, rfl⟩
        rw [hbuf, List.drop_append_eq_append_drop, Nat.sub_eq_zero_of_le hle,
          List.drop_zero]
  | cons g rest =>
      rcases hshape with ⟨_, _, h3⟩ | ⟨h1, h2, h3⟩
      · exact absurd h3 (by simp)
      have hdropne : gs.drop vs.length ≠ [] := by rw [← h3]; simp
      have hlt : vs.length < gs.length := by
        rcases Nat.lt_or_ge vs.length gs.length with hh | hh
        · exact hh
        · exact absurd (List.drop_eq_nil_iff.mpr hh) hdropne
      have hg0 : gs[vs.length] = g := by
        have h01 : (gs.drop vs.length).head? = some g := by rw [← h3]; rfl
        rw [List.head?_drop, List.getElem?_eq_getElem hlt] at h01
        exact Option.some.inj h01
      have hrest : rest = gs.drop (vs.length + 1) := by
        have h02 := List.drop_drop 1 vs.length gs
        rw [← h3] at h02
        simpa using h02
      have hgmem : g ∈ gs := by
        rw [← hg0]; exact List.getElem_mem hlt
      have hgnid : g < nid := hbound g hgmem
      have hput : put v ⟨none, none, buf, g :: rest, none, fut, nid⟩
          = (Except.ok nid, ⟨none, none, buf, rest, none,
             fun n => if n = nid then FutureState.done
                      else if n = g then FutureState.value v
                      else fut n, nid + 1⟩) := by
        simp [put]
      rw [hput]
      refine ⟨rfl, rfl, rfl, ?_, hnodup, ?_, ?_, ?_⟩
      · intro a ha; exact Nat.lt_succ_of_lt (hbound a ha)
      · intro i hv hg2
        simp only [List.length_append, List.length_singleton] at hv
        rcases Nat.lt_or_ge i vs.length with hiv | hiv
        · have hne1 : gs[i] ≠ nid := Nat.ne_of_lt (hbound _ (List.getElem_mem hg2))
          have hne2 : gs[i] ≠ g := by
            rw [← hg0]
            intro hcontra
            have := (hnodup.getElem_inj_iff).mp hcontra
            omega
          simp only [hne1, hne2, if_neg, ite_false, if_false]
          rw [List.getElem_append_left hiv]
          exact hmatched i hiv hg2
        · have hieq : i = vs.length := by omega
          subst hieq
          rw [hg0]
          have hgne : g ≠ nid := Nat.ne_of_lt hgnid
          simp only [hgne, if_neg, ite_false, if_false, if_pos rfl]
          rw [List.getElem_concat_length vs v vs.length rfl]
          simp
      · intro i hge hg2
        simp only [List.length_append, List.length_singleton] at hge
        have hne1 : gs[i] ≠ nid := Nat.ne_of_lt (hbound _ (List.getElem_mem hg2))
        have hne2 : gs[i] ≠ g := by
          rw [← hg0]
          intro hcontra
          have := (hnodup.getElem_inj_iff).mp hcontra
          omega
        simp only [hne1, hne2, if_neg, ite_false, if_false]
        exact hpending i (by omega) hg2
      · right
        refine ⟨by simp; omega, h2, ?_⟩
        rw [hrest]
        simp
/-- Helper: `get` on the unbounded queue always succeeds with a fresh
future id and preserves the run invariant, extending the list of consumer
future ids. -/
theorem uinv_get (s : QState) (vs gs : List Nat) (h : UInv s vs gs) :
    (get s).1 = Except.ok s.nextId ∧ UInv ((get s).2) vs (gs ++ [s.nextId]) := by
  obtain ⟨sz, bl, buf, pg, pp, fut, nid⟩ := s
  obtain ⟨hsize, hbacklog, hpp, hbound, hnodup, hmatched, hpending, hshape⟩ := h
  simp only at hsize hbacklog hpp hbound hmatched hpending hshape ⊢
  subst hsize hbacklog hpp
  have hnewbound : ∀ a ∈ gs ++ [nid], a < nid + 1 := by
    intro a ha
    rcases List.mem_append.mp ha with ha | ha
    · exact Nat.lt_succ_of_lt (hbound a ha)
    · simp at ha; omega
  have hnewnodup : (gs ++ [nid]).Nodup := by
    rw [List.nodup_append]
    refine ⟨hnodup, List.nodup_singleton nid, ?_⟩
    intro a ha hb
    simp at hb
    subst hb
    have := hbound a ha
    omega
  cases buf with
  | cons w rest =>
      obtain ⟨hle, hbuf, hpg⟩ :
          gs.length ≤ vs.length ∧ (w :: rest : List Nat) = vs.drop gs.length ∧ pg = [] := by
        rcases hshape with ⟨h1, h2, h3⟩ | ⟨h1, h2, h3⟩
        · exact ⟨h1, h2, h3⟩
        · exact absurd h2 (by simp)
      subst hpg
      have hlt : gs.length < vs.length := by
        rcases Nat.lt_or_ge gs.length vs.length with hh | hh
        · exact hh
        · rw [List.drop_eq_nil_iff.mpr hh] at hbuf
          exact absurd hbuf (by simp)
      have hw : vs[gs.length] = w := by
        have h01 : (vs.drop gs.length).head? = some w := by rw [← hbuf]; rfl
        rw [List.head?_drop, List.getElem?_eq_getElem hlt] at h01
        exact Option.some.inj h01
      have hrest : rest = vs.drop (gs.length + 1) := by
        have h02 := List.drop_drop 1 gs.length vs
        rw [← hbuf] at h02
        simpa using h02
      have hget : get ⟨none, none, w :: rest, [], none, fut, nid⟩
          = (Except.ok nid, ⟨none, none, rest, [], none,
             fun n => if n = nid then FutureState.value w else fut n, nid + 1⟩) := by
        simp [get]
      rw [hget]
      refine ⟨rfl, rfl, rfl, rfl, hnewbound, hnewnodup, ?_, ?_, ?_⟩
      · intro i hv hg2
        simp only [List.length_append, List.length_singleton] at hg2
        rcases Nat.lt_or_ge i gs.length with hig | hig
        · have hne : gs[i] ≠ nid := Nat.ne_of_lt (hbound _ (List.getElem_mem hig))
          rw [List.getElem_append_left hig]
          simp only [hne, if_neg, ite_false, if_false]
          exact hmatched i hv hig
        · have hieq : i = gs.length := by omega
          subst hieq
          rw [List.getElem_concat_length gs nid gs.length rfl]
          simp [hw]
      · intro i hge hg2
        simp only [List.length_append, List.length_singleton] at hg2
        omega
      · left
        refine ⟨by simp; omega, ?_, rfl⟩
        rw [hrest]
        simp
  | nil =>
      obtain ⟨hle2, hpg⟩ : vs.length ≤ gs.length ∧ pg = gs.drop vs.length := by
        rcases hshape with ⟨h1, h2, h3⟩ | ⟨h1, h2, h3⟩
        · have h4 : vs.length ≤ gs.length := List.drop_eq_nil_iff.mp h2.symm
          have h5 : gs.length ≤ vs.length := h1
          refine ⟨h4, ?_⟩
          rw [h3]
          exact (List.drop_eq_nil_iff.mpr (by omega)).symm
        · exact ⟨h1, h3⟩
      subst hpg
      have hget : get ⟨none, none, [], gs.drop vs.length, none, fut, nid⟩
          = (Except.ok nid, ⟨none, none, [], gs.drop vs.length ++ [nid], none,
             fun n => if n = nid then FutureState.pending else fut n, nid + 1⟩) := by
        simp [get]
      rw [hget]
      refine ⟨rfl, rfl, rfl, rfl, hnewbound, hnewnodup, ?_, ?_, ?_⟩
      · intro i hv hg2
        have hig : i < gs.length := lt_of_lt_of_le hv hle2
        have hne : gs[i] ≠ nid := Nat.ne_of_lt (hbound _ (List.getElem_mem hig))
        rw [List.getElem_append_left hig]
        simp only [hne, if_neg, ite_false, if_false]
        exact hmatched i hv hig
      · intro i hge hg2
        simp only [List.length_append, List.length_singleton] at hg2
        rcases Nat.lt_or_ge i gs.length with hig | hig
        · have hne : gs[i] ≠ nid := Nat.ne_of_lt (hbound _ (List.getElem_mem hig))
          rw [List.getElem_append_left hig]
          simp only [hne, if_neg, ite_false, if_false]
          exact hpending i hge hig
        · have hieq : i = gs.length := by omega
          subst hieq
          rw [List.getElem_concat_length gs nid gs.length rfl]
          simp
      · right
        refine ⟨by simp; omega, rfl, ?_⟩
        rw [List.drop_append_eq_append_drop, Nat.sub_eq_zero_of_le hle2,
          List.drop_zero]

/-- Helper: running a cancellation-free trace on an unbounded queue
preserves the run invariant, appending the trace's put values and the
ids of its get futures; every get succeeds, so there are as many ids as
get operations. -/
theorem uinv_runGets (ops : List Op) (s : QState) (vs gs : List Nat)
    (hnc : ∀ o ∈ ops, o.isCancel = false) (h : UInv s vs gs) :
    UInv (runGets ops s).1 (vs ++ putVals ops) (gs ++ (runGets ops s).2) ∧
    (runGets ops s).2.length = numGets ops := by
  induction ops generalizing s vs gs with
  | nil =>
      simp only [runGets, putVals, numGets, List.filterMap_nil, List.filter_nil,
        List.length_nil, List.append_nil]
      exact ⟨h, trivial⟩
  | cons op rest ih =>
      have hnc' : ∀ o ∈ rest, o.isCancel = false :=
        fun o ho => hnc o (List.mem_cons_of_mem _ ho)
      cases op with
      | put v =>
          have h2 := ih ((put v s).2) (vs ++ [v]) gs hnc' (uinv_put s vs gs v h)
          simp only [runGets, applyOp]
          constructor
          · have h3 : vs ++ putVals (Op.put v :: rest) = (vs ++ [v]) ++ putVals rest := by
              simp [putVals]
            rw [h3]
            exact h2.1
          · have h4 : numGets (Op.put v :: rest) = numGets rest := by
              simp [numGets]
            rw [h4]
            exact h2.2
      | get =>
          obtain ⟨hok, h1⟩ := uinv_get s vs gs h
          have h2 := ih ((get s).2) vs (gs ++ [s.nextId]) hnc' h1
          simp only [runGets, hok]
          constructor
          · have h3 : vs ++ putVals (Op.get :: rest) = vs ++ putVals rest := by
              simp [putVals]
            have h4 : gs ++ (s.nextId :: (runGets rest (get s).2).2)
                = (gs ++ [s.nextId]) ++ (runGets rest (get s).2).2 := by
              simp
            rw [h3, h4]
            exact h2.1
          · have h5 : numGets (Op.get :: rest) = numGets rest + 1 := by
              simp [numGets]
            rw [h5]
            simp only [List.length_cons]
            rw [h2.2]
      | cancel fid =>
          have := hnc (Op.cancel fid) (List.mem_cons_self _ _)
          simp [Op.isCancel] at this

/-- C1: on a queue with no size and no backlog limit, for every
cancellation-free sequence of N puts and N gets in which each value's put
precedes (in call order) the get that receives it, the N get futures
resolve with exactly the N put values, in put order. -/
theorem unbounded_queue_fifo (ops : List Op) (N : Nat)
    (hnc : ∀ o ∈ ops, o.isCancel = false)
    (hputs : (putVals ops).length = N)
    (hgets : numGets ops = N)
    (hprec : ∀ n, n < ops.length →
      numGets (List.take n ops) ≤ (putVals (List.take n ops)).length) :
    ((runGets ops (init none none)).2).map ((runGets ops (init none none)).1.futures)
      = (putVals ops).map FutureState.value := by
  obtain ⟨h, hlen⟩ := uinv_runGets ops (init none none) [] [] hnc uinv_init
  simp only [List.nil_append] at h
  apply List.ext_getElem
  · simp only [List.length_map]
    omega
  · intro i h1 h2
    simp only [List.length_map] at h1 h2
    rw [List.getElem_map, List.getElem_map]
    exact h.hmatched i h2 h1

/-- Witness for C1: two puts followed by two gets on an unlimited queue
deliver the two values in order. -/
theorem unbounded_queue_fifo_witness :
    ((runGets [Op.put 1, Op.put 2, Op.get, Op.get] (init none none)).2).map
        ((runGets [Op.put 1, Op.put 2, Op.get, Op.get] (init none none)).1.futures)
      = (putVals [Op.put 1, Op.put 2, Op.get, Op.get]).map FutureState.value :=
  unbounded_queue_fifo [Op.put 1, Op.put 2, Op.get, Op.get] 2
    (by decide) (by decide) (by decide) (by decide)

end GoApiToolkit
